import Mathlib

/-!
Verification of the MEIRLOP enrichment-pipeline design.

The repository ships only its documentation; the enrichment core
(sequence scanner, covariate builder, dimensionality reducer, enrichment
modeler, result aggregator) is therefore modelled here from the design
specification.  Numeric library routines that the design itself treats as
external dependencies (the MOODS log-odds/threshold derivation, the PCA
decomposition, the square root used for standardization, and the
maximum-likelihood logistic-regression fitter) are taken as explicit
function parameters, so every theorem below holds for all instantiations
of those routines.
-/

namespace Meirlop

/-- Modelled from the spec: the DNA alphabet used by sequences and motif
matrices. -/
inductive Nuc : Type
  | A | C | G | T
deriving DecidableEq, Repr

instance : Inhabited Nuc := ⟨Nuc.A⟩

/-- Modelled from the spec: Watson-Crick complement of a nucleotide. -/
def compNuc : Nuc → Nuc
  | Nuc.A => Nuc.T
  | Nuc.T => Nuc.A
  | Nuc.C => Nuc.G
  | Nuc.G => Nuc.C

/-- Modelled from the spec: reverse complement of a nucleotide string. -/
def revCompSeq (s : List Nuc) : List Nuc := (s.map compNuc).reverse

/-- Modelled from the spec: a Sequence record — unique name, nucleotide
string, numeric score. -/
structure SeqRec : Type where
  name : String
  nts : List Nuc
  score : ℚ
deriving DecidableEq

instance : Inhabited SeqRec := ⟨⟨"", [], 0⟩⟩

/-- Modelled from the spec: a MotifMatrix — identifier plus an
alphabet-indexed position weight matrix (one column per motif position,
each column mapping a nucleotide symbol to its weight). -/
structure MotifMatrix : Type where
  motifId : String
  pwm : List (Nuc → ℚ)

instance : Inhabited MotifMatrix := ⟨⟨"", []⟩⟩

/-- Modelled from the spec: log-odds score of one window of a sequence
against a per-position scoring matrix (sum of the per-position weights of
the window's nucleotides). -/
def windowScore (lom : List (Nuc → ℚ)) (window : List Nuc) : ℚ :=
  (List.zipWith (fun col n => col n) lom window).sum

/-- Modelled from the spec: reverse-complement of a scoring matrix,
used to scan the opposite strand. -/
def revCompMatrix (lom : List (Nuc → ℚ)) : List (Nuc → ℚ) :=
  (lom.map (fun col => fun n => col (compNuc n))).reverse

/-- Modelled from the spec: the positions of a sequence at which the
motif's window score exceeds the log-odds threshold.  A sequence shorter
than the motif width has no candidate position. -/
def matchPositions (lom : List (Nuc → ℚ)) (θ : ℚ) (s : List Nuc) : List ℕ :=
  (List.range (s.length + 1 - lom.length)).filter
    (fun i => decide (θ < windowScore lom ((s.drop i).take lom.length)))

/-- Modelled from the spec: presence flag for one sequence — true iff at
least one position matches on the forward strand, or, when
reverse-complement scanning is enabled, on either strand. -/
def seqPresence (lom : List (Nuc → ℚ)) (θ : ℚ) (rc : Bool) (s : List Nuc) : Bool :=
  !(matchPositions lom θ s).isEmpty ||
    (rc && !(matchPositions (revCompMatrix lom) θ s).isEmpty)

/-- Modelled from the spec: per-motif presence vector, one flag per
sequence, in input sequence order. -/
def presenceVector (lom : List (Nuc → ℚ)) (θ : ℚ) (rc : Bool)
    (seqs : List SeqRec) : List Bool :=
  seqs.map (fun s => seqPresence lom θ rc s.nts)

theorem matchPositions_mem (lom : List (Nuc → ℚ)) (θ : ℚ) (s : List Nuc) (i : ℕ) :
    i ∈ matchPositions lom θ s ↔
      i < s.length + 1 - lom.length ∧
        θ < windowScore lom ((s.drop i).take lom.length) := by
  simp [matchPositions, List.mem_filter, List.mem_range]

theorem matchPositions_ne_nil_iff (lom : List (Nuc → ℚ)) (θ : ℚ) (s : List Nuc) :
    (!(matchPositions lom θ s).isEmpty) = true ↔
      ∃ i, i + lom.length ≤ s.length ∧
        θ < windowScore lom ((s.drop i).take lom.length) := by
  rw [Bool.not_eq_true', List.isEmpty_eq_false_iff_exists_mem]
  constructor
  · rintro ⟨i, hi⟩
    rw [matchPositions_mem] at hi
    exact ⟨i, by omega, hi.2⟩
  · rintro ⟨i, hi, hs⟩
    exact ⟨i, (matchPositions_mem _ _ _ _).2 ⟨by omega, hs⟩⟩

theorem matchPositions_short (lom : List (Nuc → ℚ)) (θ : ℚ) (s : List Nuc)
    (h : s.length < lom.length) : matchPositions lom θ s = [] := by
  have : s.length + 1 - lom.length = 0 := by omega
  simp [matchPositions, this]

theorem revCompMatrix_length (lom : List (Nuc → ℚ)) :
    (revCompMatrix lom).length = lom.length := by
  simp [revCompMatrix]

/-- Claim C3: given a MotifMatrix, a pseudocount p > 0 and a p-value
threshold t in (0,1), the scanner sets a sequence's presence flag to true
iff at least one position scores above the log-odds threshold derived
from t; with reverse-complement scanning enabled a sequence is positive
if either strand matches; and a sequence shorter than the motif width
yields no match rather than an error.  The log-odds matrix and threshold
derivations (MOODS internals) are abstracted as the parameters
logOdds and thrOf. -/
theorem scanner_contract (m : MotifMatrix)
    (logOdds : MotifMatrix → ℚ → List (Nuc → ℚ))
    (thrOf : MotifMatrix → ℚ → ℚ → ℚ)
    (p t : ℚ) (hp : 0 < p) (ht0 : 0 < t) (ht1 : t < 1)
    (rc : Bool) (s : List Nuc) :
    (seqPresence (logOdds m p) (thrOf m p t) rc s = true ↔
      ((∃ i, i + (logOdds m p).length ≤ s.length ∧
          thrOf m p t <
            windowScore (logOdds m p) ((s.drop i).take (logOdds m p).length)) ∨
        (rc = true ∧ ∃ i, i + (logOdds m p).length ≤ s.length ∧
          thrOf m p t <
            windowScore (revCompMatrix (logOdds m p))
              ((s.drop i).take (logOdds m p).length)))) ∧
    (s.length < (logOdds m p).length →
      seqPresence (logOdds m p) (thrOf m p t) rc s = false) := by
  constructor
  · rw [seqPresence, Bool.or_eq_true, Bool.and_eq_true,
      matchPositions_ne_nil_iff, matchPositions_ne_nil_iff, revCompMatrix_length]
  · intro hshort
    rw [seqPresence, matchPositions_short _ _ _ hshort,
      matchPositions_short _ _ _ (by rwa [revCompMatrix_length])]
    simp

/-- Concrete instantiation of the scanner contract: with a width-one
all-ones scoring matrix and threshold 0, the single-nucleotide sequence A
is flagged present. -/
theorem scanner_contract_witness :
    seqPresence ((⟨"m", [fun _ => (1 : ℚ)]⟩ : MotifMatrix).pwm) 0 true [Nuc.A] = true :=
  (scanner_contract ⟨"m", [fun _ => (1 : ℚ)]⟩ (fun mm _ => mm.pwm)
      (fun _ _ _ => 0) 1 (1/2) one_pos one_half_pos one_half_lt_one
      true [Nuc.A]).1.mpr
    (Or.inl ⟨0, by simp, by simp [windowScore]⟩)

/-- Modelled from the spec: the four nucleotide symbols, in alphabet order. -/
def nucList : List Nuc := [Nuc.A, Nuc.C, Nuc.G, Nuc.T]

/-- Modelled from the spec: all possible k-mers over the DNA alphabet
(4 ^ k combinations). -/
def allKmers : ℕ → List (List Nuc)
  | 0 => [[]]
  | k + 1 => nucList.flatMap (fun n => (allKmers k).map (fun km => n :: km))

/-- Modelled from the spec: number of occurrences of a k-mer in a
sequence (positions at which the window equals the k-mer). -/
def countKmer (km : List Nuc) (s : List Nuc) : ℕ :=
  (List.range (s.length + 1 - km.length)).countP
    (fun i => decide ((s.drop i).take km.length = km))

/-- Modelled from the spec: normalized k-mer frequency — count divided by
the number of windows, length − k + 1. -/
def kmerFrac (km : List Nuc) (s : List Nuc) : ℚ :=
  (countKmer km s : ℚ) / ((s.length + 1 - km.length : ℕ) : ℚ)

/-- Modelled from the spec: GC fraction of a sequence. -/
def gcFrac (s : List Nuc) : ℚ :=
  (s.countP (fun n => decide (n = Nuc.C ∨ n = Nuc.G)) : ℚ) / (s.length : ℚ)

/-- Modelled from the spec: covariate-builder configuration
(k-mer length, GC flag, length flag). -/
structure CovConfig : Type where
  kmerK : ℕ
  useGc : Bool
  useLength : Bool

/-- Modelled from the spec: the raw covariate row of one sequence —
normalized frequencies of every possible k-mer when k > 0, then the GC
fraction when requested, then the sequence length when requested. -/
def covariateRow (cfg : CovConfig) (s : List Nuc) : List ℚ :=
  (if cfg.kmerK = 0 then [] else (allKmers cfg.kmerK).map (fun km => kmerFrac km s))
    ++ (if cfg.useGc then [gcFrac s] else [])
    ++ (if cfg.useLength then [(s.length : ℚ)] else [])

/-- Modelled from the spec: the raw covariate matrix, one row per
sequence, in input sequence order. -/
def rawCovariateMatrix (cfg : CovConfig) (seqs : List SeqRec) : List (List ℚ) :=
  seqs.map (fun s => covariateRow cfg s.nts)

/-- Modelled from the spec: number of raw covariate columns implied by a
configuration. -/
def numCovCols (cfg : CovConfig) : ℕ :=
  (if cfg.kmerK = 0 then 0 else 4 ^ cfg.kmerK) +
    (if cfg.useGc then 1 else 0) + (if cfg.useLength then 1 else 0)

theorem allKmers_length (k : ℕ) : (allKmers k).length = 4 ^ k := by
  induction k with
  | zero => rfl
  | succ k ih =>
    simp [allKmers, nucList, ih]
    ring

theorem mem_allKmers (k : ℕ) (km : List Nuc) :
    km ∈ allKmers k ↔ km.length = k := by
  induction k generalizing km with
  | zero => cases km <;> simp [allKmers]
  | succ k ih =>
    constructor
    · intro h
      simp only [allKmers, List.mem_flatMap, List.mem_map] at h
      obtain ⟨n, _, km', hkm', rfl⟩ := h
      simp [ih km' |>.1 hkm']
    · intro h
      cases km with
      | nil => simp at h
      | cons n km' =>
        simp only [allKmers, List.mem_flatMap, List.mem_map]
        refine ⟨n, by cases n <;> simp [nucList], km', ?_, rfl⟩
        exact (ih km').2 (by simpa using h)

/-- Modelled from the spec: arithmetic mean of a column. -/
def listMean (l : List ℚ) : ℚ := l.sum / (l.length : ℚ)

/-- Modelled from the spec: a column with its mean subtracted. -/
def centerCol (l : List ℚ) : List ℚ := l.map (fun x => x - listMean l)

/-- Modelled from the spec: population variance of a column. -/
def listVar (l : List ℚ) : ℚ :=
  ((centerCol l).map (fun x => x ^ 2)).sum / (l.length : ℚ)

/-- Modelled from the spec: column standardization — subtract the mean
and divide by the square root of the variance, the square root being
supplied by an external numeric routine. -/
def standardizeCol (sqrtFn : ℚ → ℚ) (l : List ℚ) : List ℚ :=
  (centerCol l).map (fun x => x / sqrtFn (listVar l))

/-- Modelled from the spec: the columns of a row-major matrix, padding
missing entries with 0. -/
def matrixCols (m : List (List ℚ)) (ncols : ℕ) : List (List ℚ) :=
  (List.range ncols).map (fun j => m.map (fun row => row.getD j 0))

/-- Modelled from the spec: scan of the explained-variance shares,
accumulating until the 0.99 threshold is reached. -/
def minComponentsGo : List ℚ → ℚ → ℕ
  | [], _ => 0
  | r :: rs, acc =>
    if (99 : ℚ)/100 ≤ acc + r then 1 else 1 + minComponentsGo rs (acc + r)

/-- Modelled from the spec: the minimal number of leading components
whose cumulative explained-variance share reaches 0.99 (all components
when the threshold is never reached). -/
def minComponents (shares : List ℚ) : ℕ := minComponentsGo shares 0

/-- Modelled from the spec: number of reduced components kept by the
dimensionality reducer — zero when the raw matrix has no columns, when
it has fewer rows than columns, or when the decomposition fails
(rank deficiency); otherwise the minimal component count reaching 0.99
cumulative explained variance.  The decomposition itself (PCA) is an
external numeric routine returning the explained-variance shares, and is
applied to the standardized columns. -/
def reducedComponentCount (decomp : List (List ℚ) → Option (List ℚ))
    (sqrtFn : ℚ → ℚ) (raw : List (List ℚ)) (ncols : ℕ) : ℕ :=
  if ncols = 0 then 0
  else if raw.length < ncols then 0
  else
    match decomp ((matrixCols raw ncols).map (standardizeCol sqrtFn)) with
    | none => 0
    | some shares => minComponents shares

/-- Modelled from the spec: the reduced covariate rows — the external
PCA coordinates of the standardized columns, truncated to the kept
component count. -/
def reducedCovariates (decomp : List (List ℚ) → Option (List ℚ))
    (pcaCoords : List (List ℚ) → List (List ℚ))
    (sqrtFn : ℚ → ℚ) (raw : List (List ℚ)) (ncols : ℕ) : List (List ℚ) :=
  let ncomp := reducedComponentCount decomp sqrtFn raw ncols
  (pcaCoords ((matrixCols raw ncols).map (standardizeCol sqrtFn))).map
    (fun row => row.take ncomp)

theorem minComponentsGo_le (shares : List ℚ) :
    ∀ acc n, acc < (99 : ℚ)/100 → (99 : ℚ)/100 ≤ acc + (shares.take n).sum →
      minComponentsGo shares acc ≤ n := by
  induction shares with
  | nil => intro acc n _ _; simp [minComponentsGo]
  | cons r rs ih =>
    intro acc n hacc hn
    cases n with
    | zero => simp at hn; linarith
    | succ m =>
      rw [minComponentsGo]
      split
      · omega
      · rename_i hlt
        push_neg at hlt
        have := ih (acc + r) m hlt (by simp at hn ⊢; linarith)
        omega

theorem minComponentsGo_reaches (shares : List ℚ) :
    ∀ acc, (99 : ℚ)/100 ≤ acc + shares.sum →
      (99 : ℚ)/100 ≤ acc + (shares.take (minComponentsGo shares acc)).sum := by
  induction shares with
  | nil => intro acc h; simpa using h
  | cons r rs ih =>
    intro acc h
    rw [minComponentsGo]
    split
    · simpa
    · have hrec := ih (acc + r) (by simp at h ⊢; linarith)
      have h2 : 1 + minComponentsGo rs (acc + r) = minComponentsGo rs (acc + r) + 1 := by
        omega
      rw [h2, List.take_succ_cons]
      simp at hrec ⊢
      linarith

theorem sum_map_sub_const (l : List ℚ) (c : ℚ) :
    (l.map (fun x => x - c)).sum = l.sum - l.length * c := by
  induction l with
  | nil => simp
  | cons a l ih => simp [ih]; ring

theorem sum_map_div_const (l : List ℚ) (c : ℚ) :
    (l.map (fun x => x / c)).sum = l.sum / c := by
  induction l with
  | nil => simp
  | cons a l ih => simp [ih, add_div]

theorem listMean_centerCol (l : List ℚ) : listMean (centerCol l) = 0 := by
  rcases eq_or_ne l [] with rfl | hl
  · simp [listMean, centerCol]
  · have hn : (l.length : ℚ) ≠ 0 := by
      exact_mod_cast (List.length_pos.2 hl).ne'
    rw [listMean, centerCol, sum_map_sub_const, List.length_map, listMean,
      mul_comm, div_mul_cancel₀ _ hn, sub_self, zero_div]

theorem listMean_map_div (l : List ℚ) (c : ℚ) :
    listMean (l.map (fun x => x / c)) = listMean l / c := by
  rw [listMean, sum_map_div_const, List.length_map, listMean]
  ring

theorem centerCol_of_mean_zero (l : List ℚ) (h : listMean l = 0) :
    centerCol l = l := by
  simp [centerCol, h]

theorem listVar_standardizeCol (sqrtFn : ℚ → ℚ) (l : List ℚ)
    (hs : sqrtFn (listVar l) ≠ 0)
    (hv : sqrtFn (listVar l) * sqrtFn (listVar l) = listVar l) :
    listVar (standardizeCol sqrtFn l) = 1 := by
  set s := sqrtFn (listVar l) with hsdef
  have hmean : listMean (standardizeCol sqrtFn l) = 0 := by
    rw [standardizeCol, ← hsdef, listMean_map_div, listMean_centerCol, zero_div]
  have hVne : listVar l ≠ 0 := hv ▸ mul_ne_zero hs hs
  have hlen : (standardizeCol sqrtFn l).length = l.length := by
    simp [standardizeCol, centerCol]
  have hmaps : (standardizeCol sqrtFn l).map (fun x => x ^ 2)
      = ((centerCol l).map (fun x => x ^ 2)).map (fun y => y / (s * s)) := by
    rw [standardizeCol, ← hsdef, List.map_map, List.map_map]
    apply List.map_congr_left
    intro a _
    simp only [Function.comp_apply, div_pow, pow_two]
    ring
  have hn : (l.length : ℚ) ≠ 0 := by
    intro h0
    exact hVne (by rw [listVar, h0, div_zero])
  have hS : ((centerCol l).map (fun x => x ^ 2)).sum ≠ 0 := by
    intro h0
    exact hVne (by rw [listVar, h0, zero_div])
  rw [listVar, centerCol_of_mean_zero _ hmean, hmaps, sum_map_div_const, hlen, hv,
    listVar]
  field_simp

/-- Claim C5: the Dimensionality Reducer keeps the minimal number of
components whose cumulative explained-variance share reaches 0.99 of the
raw covariate matrix's variance, standardizing each raw feature to zero
mean and unit variance before the (external) decomposition; it keeps
zero components when the raw matrix has no columns, and degrades to zero
components — instead of failing — when the matrix has fewer rows than
columns or the decomposition is impossible (rank deficiency, modelled by
the decomposition routine returning no shares). -/
theorem reducer_contract :
    (∀ (decomp : List (List ℚ) → Option (List ℚ)) (sqrtFn : ℚ → ℚ)
        (raw : List (List ℚ)),
      reducedComponentCount decomp sqrtFn raw 0 = 0) ∧
    (∀ (decomp : List (List ℚ) → Option (List ℚ)) (sqrtFn : ℚ → ℚ)
        (raw : List (List ℚ)) (ncols : ℕ), raw.length < ncols →
      reducedComponentCount decomp sqrtFn raw ncols = 0) ∧
    (∀ (decomp : List (List ℚ) → Option (List ℚ)) (sqrtFn : ℚ → ℚ)
        (raw : List (List ℚ)) (ncols : ℕ),
      decomp ((matrixCols raw ncols).map (standardizeCol sqrtFn)) = none →
      reducedComponentCount decomp sqrtFn raw ncols = 0) ∧
    (∀ (decomp : List (List ℚ) → Option (List ℚ)) (sqrtFn : ℚ → ℚ)
        (raw : List (List ℚ)) (ncols : ℕ) (shares : List ℚ),
      0 < ncols → ¬ raw.length < ncols →
      decomp ((matrixCols raw ncols).map (standardizeCol sqrtFn)) = some shares →
      reducedComponentCount decomp sqrtFn raw ncols = minComponents shares ∧
      ((99 : ℚ)/100 ≤ shares.sum →
        (99 : ℚ)/100 ≤ (shares.take (minComponents shares)).sum) ∧
      (∀ n, (99 : ℚ)/100 ≤ (shares.take n).sum → minComponents shares ≤ n)) ∧
    (∀ (sqrtFn : ℚ → ℚ) (l : List ℚ),
      listMean (standardizeCol sqrtFn l) = 0) ∧
    (∀ (sqrtFn : ℚ → ℚ) (l : List ℚ), sqrtFn (listVar l) ≠ 0 →
      sqrtFn (listVar l) * sqrtFn (listVar l) = listVar l →
      listVar (standardizeCol sqrtFn l) = 1) := by
  refine ⟨?_, ?_, ?_, ?_, ?_, ?_⟩
  · intro decomp sqrtFn raw
    simp [reducedComponentCount]
  · intro decomp sqrtFn raw ncols h
    have : ncols ≠ 0 := by omega
    simp [reducedComponentCount, this, h]
  · intro decomp sqrtFn raw ncols h
    rcases eq_or_ne ncols 0 with rfl | hnc
    · simp [reducedComponentCount]
    · rcases Nat.lt_or_ge raw.length ncols with hlt | hge
      · simp [reducedComponentCount, hnc, hlt]
      · simp [reducedComponentCount, hnc, Nat.not_lt.2 hge, h]
  · intro decomp sqrtFn raw ncols shares h0 hge hdec
    refine ⟨?_, ?_, ?_⟩
    · simp [reducedComponentCount, Nat.pos_iff_ne_zero.1 h0, hge, hdec]
    · intro hsum
      simpa using minComponentsGo_reaches shares 0 (by simpa using hsum)
    · intro n hn
      exact minComponentsGo_le shares 0 n (by norm_num) (by simpa using hn)
  · intro sqrtFn l
    rw [standardizeCol, listMean_map_div, listMean_centerCol, zero_div]
  · exact listVar_standardizeCol

/-- Concrete instantiation of the reducer contract: a 1×1 raw matrix
whose decomposition yields a single full-variance share keeps exactly
minComponents [1] components, and the column [1, -1] standardized with
the exact square root 1 has unit variance. -/
theorem reducer_contract_witness :
    reducedComponentCount (fun _ => none) (fun x => x) ([] : List (List ℚ)) 0 = 0 ∧
    reducedComponentCount (fun _ => some [1]) (fun x => x) [[0]] 1 = minComponents [1] ∧
    listVar (standardizeCol (fun _ => 1) [1, -1]) = 1 :=
  ⟨reducer_contract.1 _ _ _,
   (reducer_contract.2.2.2.1 _ _ _ _ _ one_pos (by decide) rfl).1,
   reducer_contract.2.2.2.2.2 _ _ (by norm_num)
     (by norm_num [listVar, centerCol, listMean])⟩

/-- Modelled from the spec: per-motif modeling output — motif id, fitted
score coefficient, standard error, raw Wald p-value, convergence flag,
and count of sequences with the motif present.  Invalid/NaN numeric
fields of flagged results are modelled as the absent option value. -/
structure MotifResult : Type where
  motifId : String
  coef : Option ℚ
  se : Option ℚ
  pval : Option ℚ
  converged : Bool
  nPresent : ℕ
deriving DecidableEq

/-- Modelled from the spec: the Enrichment Modeler for one motif.  A
degenerate presence vector (motif in zero or all sequences, perfect
separation) is flagged as non-convergence without fitting; otherwise the
external maximum-likelihood fitter either converges with
(coefficient, standard error, p-value) or fails, which is also flagged.
Flagged results carry no coefficient or p-value. -/
def fitMotif (fitter : List Bool → List ℚ → List (List ℚ) → Option (ℚ × ℚ × ℚ))
    (motifId : String) (presence : List Bool) (scores : List ℚ)
    (covs : List (List ℚ)) : MotifResult :=
  let np := presence.countP (fun b => b)
  if np = 0 ∨ np = presence.length then
    ⟨motifId, none, none, none, false, np⟩
  else
    match fitter presence scores covs with
    | some (c, s, p) => ⟨motifId, some c, some s, some p, true, np⟩
    | none => ⟨motifId, none, none, none, false, np⟩

/-- Modelled from the spec: one row of the ranked result table. -/
structure ResultRow : Type where
  motifId : String
  coef : Option ℚ
  absCoef : Option ℚ
  pval : Option ℚ
  padj : Option ℚ
  padjSig : ℕ
  nPresent : ℕ
  converged : Bool
deriving DecidableEq

/-- Modelled from the spec: how many of the tested p-values are at most
q (the Benjamini-Hochberg rank of q). -/
def bhCount (ps : List ℚ) (q : ℚ) : ℕ := ps.countP (fun r => decide (r ≤ q))

/-- Modelled from the spec: one Benjamini-Hochberg term, m·q divided by
the rank of q among the m tested p-values. -/
def bhFactor (ps : List ℚ) (q : ℚ) : ℚ :=
  (ps.length : ℚ) * q / (bhCount ps q : ℚ)

/-- Modelled from the spec: the Benjamini-Hochberg adjusted p-value of p
among the tested p-values ps — the smallest correction term over the
tested p-values at least p, capped at 1. -/
def bhAdjust (ps : List ℚ) (p : ℚ) : ℚ :=
  min 1 (((ps.filter (fun q => decide (p ≤ q))).map (bhFactor ps)).foldr
    min (bhFactor ps p))

/-- Modelled from the spec: the p-values entering the Benjamini-Hochberg
correction — only those of motifs whose fit converged. -/
def convergedPvals (results : List MotifResult) : List ℚ :=
  (results.filter (fun r => r.converged)).filterMap (fun r => r.pval)

/-- Modelled from the spec: derive one result row from a MotifResult —
absolute coefficient, BH-adjusted p-value (undefined for flagged
results), and the pass/fail significance flag. -/
def toRow (padjThr : ℚ) (ps : List ℚ) (r : MotifResult) : ResultRow :=
  let padj : Option ℚ := if r.converged then r.pval.map (bhAdjust ps) else none
  { motifId := r.motifId, coef := r.coef,
    absCoef := r.coef.map (fun c => |c|),
    pval := r.pval, padj := padj,
    padjSig := match padj with
      | some q => if q ≤ padjThr then 1 else 0
      | none => 0,
    nPresent := r.nPresent, converged := r.converged }

/-- Modelled from the spec: ordering on optional sort keys — an absent
key (flagged row) sorts below every present key. -/
def optLe : Option ℚ → Option ℚ → Bool
  | none, _ => true
  | some _, none => false
  | some a, some b => decide (a ≤ b)

/-- Modelled from the spec: the secondary sort key — the coefficient by
default, its absolute value in absolute-sort mode. -/
def sortKey (sortAbs : Bool) (r : ResultRow) : Option ℚ :=
  if sortAbs then r.absCoef else r.coef

/-- Modelled from the spec: the sort policy — padj_sig descending first,
then the secondary key descending; rowLe a b says a may precede b. -/
def rowLe (sortAbs : Bool) (a b : ResultRow) : Bool :=
  decide (b.padjSig < a.padjSig) ||
    (decide (a.padjSig = b.padjSig) &&
      optLe (sortKey sortAbs b) (sortKey sortAbs a))

/-- Modelled from the spec: the Result Aggregator — derive the rows from
all motif results (converged p-values feeding the BH correction) and
stable-sort them by the configured policy. -/
def aggregate (padjThr : ℚ) (sortAbs : Bool) (results : List MotifResult) :
    List ResultRow :=
  (results.map (toRow padjThr (convergedPvals results))).mergeSort (rowLe sortAbs)

theorem optLe_total (x y : Option ℚ) : (optLe x y || optLe y x) = true := by
  cases x <;> cases y <;> simp [optLe, le_total]

theorem optLe_trans (x y z : Option ℚ) (h1 : optLe x y = true)
    (h2 : optLe y z = true) : optLe x z = true := by
  cases x <;> cases y <;> cases z <;> simp [optLe] at * <;> exact le_trans h1 h2

theorem rowLe_total (sortAbs : Bool) (a b : ResultRow) :
    (rowLe sortAbs a b || rowLe sortAbs b a) = true := by
  simp only [rowLe, Bool.or_eq_true, decide_eq_true_eq, Bool.and_eq_true]
  rcases Nat.lt_trichotomy a.padjSig b.padjSig with h | h | h
  · tauto
  · have := optLe_total (sortKey sortAbs a) (sortKey sortAbs b)
    simp only [Bool.or_eq_true] at this
    tauto
  · tauto

theorem rowLe_trans (sortAbs : Bool) (a b c : ResultRow)
    (h1 : rowLe sortAbs a b = true) (h2 : rowLe sortAbs b c = true) :
    rowLe sortAbs a c = true := by
  simp only [rowLe, Bool.or_eq_true, decide_eq_true_eq, Bool.and_eq_true] at *
  rcases h1 with h1 | ⟨h1e, h1o⟩ <;> rcases h2 with h2 | ⟨h2e, h2o⟩
  · exact Or.inl (lt_trans h2 h1)
  · exact Or.inl (h2e ▸ h1)
  · exact Or.inl (h1e ▸ h2)
  · exact Or.inr ⟨h1e.trans h2e, optLe_trans _ _ _ h2o h1o⟩

theorem foldr_min_le_init (l : List ℚ) (a : ℚ) : l.foldr min a ≤ a := by
  induction l with
  | nil => exact le_refl a
  | cons x l ih => exact le_trans (min_le_right _ _) ih

theorem foldr_min_le_mem (l : List ℚ) (a x : ℚ) (hx : x ∈ l) :
    l.foldr min a ≤ x := by
  induction l with
  | nil => simp at hx
  | cons y l ih =>
    rcases List.mem_cons.1 hx with rfl | hx
    · exact min_le_left _ _
    · exact le_trans (min_le_right _ _) (ih hx)

theorem le_foldr_min (l : List ℚ) (a c : ℚ) (ha : c ≤ a)
    (hl : ∀ x ∈ l, c ≤ x) : c ≤ l.foldr min a := by
  induction l with
  | nil => exact ha
  | cons y l ih =>
    exact le_min (hl y (List.mem_cons_self _ _))
      (ih (fun x hx => hl x (List.mem_cons_of_mem _ hx)))

theorem bhAdjust_mono (ps : List ℚ) (p1 p2 : ℚ) (h12 : p1 ≤ p2)
    (h2 : p2 ∈ ps) : bhAdjust ps p1 ≤ bhAdjust ps p2 := by
  unfold bhAdjust
  apply min_le_min le_rfl
  apply le_foldr_min
  · apply foldr_min_le_mem
    exact List.mem_map_of_mem _ (List.mem_filter.2 ⟨h2, by simpa⟩)
  · intro x hx
    obtain ⟨q, hq, rfl⟩ := List.mem_map.1 hx
    obtain ⟨hqps, hq2⟩ := List.mem_filter.1 hq
    apply foldr_min_le_mem
    apply List.mem_map_of_mem
    apply List.mem_filter.2 ⟨hqps, ?_⟩
    simp only [decide_eq_true_eq] at hq2 ⊢
    exact le_trans h12 hq2

theorem pair_sublist {α : Type} (l : List α) (i j : ℕ) (hi : i < l.length)
    (hj : j < l.length) (hij : i < j) : [l[i], l[j]].Sublist l := by
  have h1 : [l[i]].Sublist (l.take (i + 1)) := by
    rw [List.singleton_sublist]
    have hlen : i < (l.take (i + 1)).length := by
      simp [List.length_take]
      omega
    have hget := List.getElem_take l (j := i + 1) (i := i) (h := hlen)
    rw [← hget]
    exact List.getElem_mem _
  have h2 : [l[j]].Sublist (l.drop (i + 1)) := by
    rw [List.singleton_sublist]
    obtain ⟨d, rfl⟩ : ∃ d, j = i + 1 + d := ⟨j - (i + 1), by omega⟩
    have hlen : d < (l.drop (i + 1)).length := by
      simp [List.length_drop]
      omega
    have hget := List.getElem_drop l (i := i + 1) (j := d) (h := hlen)
    rw [← hget]
    exact List.getElem_mem _
  have h3 := List.Sublist.append h1 h2
  rw [List.take_append_drop] at h3
  exact h3

/-- Claim C8: for every row of the ranked result table, including
flagged ones, abs_coef equals the absolute value of coef (both absent on
flagged rows), and padj_sig is 1 exactly when the adjusted p-value is
defined and at most the configured threshold, else 0. -/
theorem result_row_consistency (padjThr : ℚ) (sortAbs : Bool)
    (results : List MotifResult) :
    ∀ row ∈ aggregate padjThr sortAbs results,
      row.absCoef = row.coef.map (fun c => |c|) ∧
      (row.padjSig = 1 ↔ ∃ q, row.padj = some q ∧ q ≤ padjThr) := by
  intro row hrow
  have hmem : row ∈ results.map (toRow padjThr (convergedPvals results)) :=
    ((List.mergeSort_perm _ _).mem_iff).1 hrow
  obtain ⟨r, _, rfl⟩ := List.mem_map.1 hmem
  refine ⟨rfl, ?_⟩
  cases hc : r.converged <;> cases hp : r.pval <;>
    simp [toRow, hc, hp] <;> split <;> simp_all

/-- Concrete instantiation of the row-consistency theorem on a
single-motif flagged run. -/
theorem result_row_consistency_witness :
    (toRow 0 (convergedPvals [⟨"a", none, none, none, false, 0⟩])
        ⟨"a", none, none, none, false, 0⟩).absCoef =
      (toRow 0 (convergedPvals [⟨"a", none, none, none, false, 0⟩])
        ⟨"a", none, none, none, false, 0⟩).coef.map (fun c => |c|) ∧
    ((toRow 0 (convergedPvals [⟨"a", none, none, none, false, 0⟩])
        ⟨"a", none, none, none, false, 0⟩).padjSig = 1 ↔
      ∃ q, (toRow 0 (convergedPvals [⟨"a", none, none, none, false, 0⟩])
        ⟨"a", none, none, none, false, 0⟩).padj = some q ∧ q ≤ 0) :=
  result_row_consistency 0 false [⟨"a", none, none, none, false, 0⟩] _
    (((List.mergeSort_perm _ _).mem_iff).2
      (List.mem_map_of_mem _ (List.mem_singleton_self _)))

/-- Claim C9: among converged motifs the BH-adjusted p-values are
monotone in the raw p-values — rows of the result table coming from
converged fits with raw p-values pa ≤ pb receive adjusted p-values in
the same order. -/
theorem bh_adjusted_monotone (padjThr : ℚ) (sortAbs : Bool)
    (results : List MotifResult) (ra rb : ResultRow)
    (ha : ra ∈ aggregate padjThr sortAbs results)
    (hb : rb ∈ aggregate padjThr sortAbs results)
    (hca : ra.converged = true) (hcb : rb.converged = true)
    (pa pb : ℚ) (hpa : ra.pval = some pa) (hpb : rb.pval = some pb)
    (hab : pa ≤ pb) :
    ra.padj = some (bhAdjust (convergedPvals results) pa) ∧
    rb.padj = some (bhAdjust (convergedPvals results) pb) ∧
    bhAdjust (convergedPvals results) pa ≤
      bhAdjust (convergedPvals results) pb := by
  have hmema : ra ∈ results.map (toRow padjThr (convergedPvals results)) :=
    ((List.mergeSort_perm _ _).mem_iff).1 ha
  have hmemb : rb ∈ results.map (toRow padjThr (convergedPvals results)) :=
    ((List.mergeSort_perm _ _).mem_iff).1 hb
  obtain ⟨sa, hsa, rfl⟩ := List.mem_map.1 hmema
  obtain ⟨sb, hsb, rfl⟩ := List.mem_map.1 hmemb
  have hsca : sa.converged = true := hca
  have hscb : sb.converged = true := hcb
  have hspa : sa.pval = some pa := hpa
  have hspb : sb.pval = some pb := hpb
  have hmembp : pb ∈ convergedPvals results := by
    apply List.mem_filterMap.2
    exact ⟨sb, List.mem_filter.2 ⟨hsb, by simp [hscb]⟩, hspb⟩
  exact ⟨by simp [toRow, hsca, hspa], by simp [toRow, hscb, hspb],
    bhAdjust_mono _ _ _ hab hmembp⟩

/-- Concrete instantiation of BH monotonicity on a single converged
motif with raw p-value one half. -/
theorem bh_adjusted_monotone_witness :
    (toRow 1 (convergedPvals [⟨"a", some 1, some 1, some (1/2), true, 1⟩])
        ⟨"a", some 1, some 1, some (1/2), true, 1⟩).padj =
      some (bhAdjust (convergedPvals
        [⟨"a", some 1, some 1, some (1/2), true, 1⟩]) (1/2)) ∧
    (toRow 1 (convergedPvals [⟨"a", some 1, some 1, some (1/2), true, 1⟩])
        ⟨"a", some 1, some 1, some (1/2), true, 1⟩).padj =
      some (bhAdjust (convergedPvals
        [⟨"a", some 1, some 1, some (1/2), true, 1⟩]) (1/2)) ∧
    bhAdjust (convergedPvals [⟨"a", some 1, some 1, some (1/2), true, 1⟩])
        (1/2) ≤
      bhAdjust (convergedPvals [⟨"a", some 1, some 1, some (1/2), true, 1⟩])
        (1/2) :=
  bh_adjusted_monotone 1 false [⟨"a", some 1, some 1, some (1/2), true, 1⟩]
    _ _
    (((List.mergeSort_perm _ _).mem_iff).2
      (List.mem_map_of_mem _ (List.mem_singleton_self _)))
    (((List.mergeSort_perm _ _).mem_iff).2
      (List.mem_map_of_mem _ (List.mem_singleton_self _)))
    rfl rfl (1/2) (1/2) rfl rfl (le_refl _)

/-- Claim C2: a motif whose fit does not converge — because its presence
vector is degenerate (present in zero or all sequences, perfect
separation) or because the maximum-likelihood fitter fails to converge
on a non-degenerate presence vector — produces a flagged MotifResult
with converged = false and absent coefficient/p-value, contributes
nothing to the BH correction denominator, yet still appears as a row of
the output table, and all sibling motifs keep their rows (the run does
not abort). -/
theorem flagged_motif_handling
    (fitter : List Bool → List ℚ → List (List ℚ) → Option (ℚ × ℚ × ℚ))
    (motifId : String) (presence : List Bool) (scores : List ℚ)
    (covs : List (List ℚ))
    (hflag : presence.countP (fun b => b) = 0 ∨
      presence.countP (fun b => b) = presence.length ∨
      fitter presence scores covs = none)
    (padjThr : ℚ) (sortAbs : Bool) (pre post : List MotifResult) :
    (fitMotif fitter motifId presence scores covs).converged = false ∧
    (fitMotif fitter motifId presence scores covs).coef = none ∧
    (fitMotif fitter motifId presence scores covs).pval = none ∧
    convergedPvals (pre ++ fitMotif fitter motifId presence scores covs :: post) =
      convergedPvals (pre ++ post) ∧
    (∃ row ∈ aggregate padjThr sortAbs
        (pre ++ fitMotif fitter motifId presence scores covs :: post),
      row.motifId = motifId ∧ row.converged = false ∧ row.padj = none) ∧
    (aggregate padjThr sortAbs
        (pre ++ fitMotif fitter motifId presence scores covs :: post)).length =
      pre.length + 1 + post.length := by
  have hr : fitMotif fitter motifId presence scores covs =
      ⟨motifId, none, none, none, false, presence.countP (fun b => b)⟩ := by
    by_cases hdeg : presence.countP (fun b => b) = 0 ∨
        presence.countP (fun b => b) = presence.length
    · rw [fitMotif]
      exact if_pos hdeg
    · have hnone : fitter presence scores covs = none := by tauto
      rw [fitMotif, if_neg hdeg, hnone]
  refine ⟨by rw [hr], by rw [hr], by rw [hr], ?_, ?_, ?_⟩
  · simp [convergedPvals, hr, List.filter_append]
  · refine ⟨toRow padjThr
      (convergedPvals (pre ++ fitMotif fitter motifId presence scores covs :: post))
      (fitMotif fitter motifId presence scores covs), ?_, ?_, ?_, ?_⟩
    · exact ((List.mergeSort_perm _ _).mem_iff).2
        (List.mem_map_of_mem _
          (List.mem_append_right _ (List.mem_cons_self _ _)))
    · rw [hr]; rfl
    · rw [hr]; rfl
    · simp [toRow, hr]
  · rw [aggregate, (List.mergeSort_perm _ _).length_eq, List.length_map]
    simp
    omega

/-- Concrete instantiation of the flagged-motif theorem: a motif present
in zero sequences, and a motif with a non-degenerate presence vector on
which the fitter fails, are both flagged as non-converged. -/
theorem flagged_motif_handling_witness :
    (fitMotif (fun _ _ _ => none) "m" [false] [] []).converged = false ∧
    (fitMotif (fun _ _ _ => none) "m" [true, false] [] []).converged = false :=
  ⟨(flagged_motif_handling (fun _ _ _ => none) "m" [false] [] []
      (Or.inl (by decide)) 0 false [] []).1,
   (flagged_motif_handling (fun _ _ _ => none) "m" [true, false] [] []
      (Or.inr (Or.inr rfl)) 0 false [] []).1⟩

/-- Claim C1: the final result table is a reordering of the derived rows
in which padj_sig is non-increasing (all padj_sig = 1 rows precede all
padj_sig = 0 rows), within equal padj_sig the secondary key (coef by
default, abs_coef in absolute-sort mode) is non-increasing over rows
where it is defined, and ties keep the stable input order of motifs
(tied rows appear in the output in their input order).  The aggregator
is a pure function of its inputs, so the ordering is deterministic for
identical inputs and configuration. -/
theorem ranked_table_sort_policy (padjThr : ℚ) (sortAbs : Bool)
    (results : List MotifResult) :
    (aggregate padjThr sortAbs results).Perm
      (results.map (toRow padjThr (convergedPvals results))) ∧
    (∀ i j (hi : i < (aggregate padjThr sortAbs results).length)
        (hj : j < (aggregate padjThr sortAbs results).length), i < j →
      (aggregate padjThr sortAbs results)[j].padjSig ≤
          (aggregate padjThr sortAbs results)[i].padjSig ∧
        ((aggregate padjThr sortAbs results)[i].padjSig =
            (aggregate padjThr sortAbs results)[j].padjSig →
          ∀ a b,
            sortKey sortAbs ((aggregate padjThr sortAbs results)[i]) = some a →
            sortKey sortAbs ((aggregate padjThr sortAbs results)[j]) = some b →
            b ≤ a)) ∧
    (∀ i j (hi : i < (results.map (toRow padjThr (convergedPvals results))).length)
        (hj : j < (results.map (toRow padjThr (convergedPvals results))).length),
      i < j →
      rowLe sortAbs ((results.map (toRow padjThr (convergedPvals results)))[i])
          ((results.map (toRow padjThr (convergedPvals results)))[j]) = true →
      rowLe sortAbs ((results.map (toRow padjThr (convergedPvals results)))[j])
          ((results.map (toRow padjThr (convergedPvals results)))[i]) = true →
      [(results.map (toRow padjThr (convergedPvals results)))[i],
        (results.map (toRow padjThr (convergedPvals results)))[j]].Sublist
        (aggregate padjThr sortAbs results)) := by
  have hsorted : List.Pairwise (fun a b => rowLe sortAbs a b = true)
      (aggregate padjThr sortAbs results) :=
    List.sorted_mergeSort (rowLe_trans sortAbs) (rowLe_total sortAbs) _
  refine ⟨List.mergeSort_perm _ _, ?_, ?_⟩
  · intro i j hi hj hij
    have hR := List.pairwise_iff_getElem.1 hsorted i j hi hj hij
    simp only [rowLe, Bool.or_eq_true, decide_eq_true_eq, Bool.and_eq_true] at hR
    constructor
    · rcases hR with h | ⟨he, _⟩
      · omega
      · omega
    · intro heq a b hka hkb
      rcases hR with h | ⟨_, ho⟩
      · omega
      · rw [hka, hkb] at ho
        simpa [optLe] using ho
  · intro i j hi hj hij h1 h2
    exact List.sublist_mergeSort (rowLe_trans sortAbs) (rowLe_total sortAbs)
      (List.pairwise_cons.2 ⟨fun b hb => by
        rcases List.mem_singleton.1 hb with rfl
        exact h1, List.pairwise_singleton _ _⟩)
      (pair_sublist _ i j hi hj hij)

/-- Concrete instantiation of the sort policy: two flagged rows tie on
every key and the stable sort keeps their input order as a sublist of
the output table. -/
theorem ranked_table_sort_policy_witness :
    [toRow 0 (convergedPvals [⟨"a", none, none, none, false, 0⟩,
        ⟨"b", none, none, none, false, 0⟩]) ⟨"a", none, none, none, false, 0⟩,
      toRow 0 (convergedPvals [⟨"a", none, none, none, false, 0⟩,
        ⟨"b", none, none, none, false, 0⟩]) ⟨"b", none, none, none, false, 0⟩].Sublist
      (aggregate 0 false [⟨"a", none, none, none, false, 0⟩,
        ⟨"b", none, none, none, false, 0⟩]) :=
  (ranked_table_sort_policy 0 false [⟨"a", none, none, none, false, 0⟩,
      ⟨"b", none, none, none, false, 0⟩]).2.2 0 1
    (by decide) (by decide) (by decide) (by decide) (by decide)

/-- Modelled from the spec: fatal, run-aborting error conditions. -/
inductive FatalError : Type
  | emptySet
  | duplicateName
  | covariateMismatch
  | emptyMotifSet
deriving DecidableEq, Repr

/-- Modelled from the spec: the externally supplied covariate table —
covariate column labels plus one row of numeric values per sequence
name. -/
structure CovTable : Type where
  header : List String
  rows : List (String × List ℚ)

/-- Modelled from the spec: the configuration surface consumed by the
core. -/
structure Config : Type where
  pseudocount : ℚ
  pvalThr : ℚ
  kmerK : ℕ
  useGc : Bool
  useLength : Bool
  revcomp : Bool
  padjThr : ℚ
  sortAbs : Bool
  scoreCol : Option String

/-- Modelled from the spec: the score used for a sequence — the named
column of the external covariate table when the score-column option is
set and resolvable, the FASTA header score otherwise. -/
def usedScore (scoreCol : Option String) (tbl : Option CovTable)
    (s : SeqRec) : ℚ :=
  match scoreCol, tbl with
  | some col, some t =>
    ((t.rows.lookup s.name).bind (fun vals =>
      (t.header.indexOf? col).bind (fun idx => vals[idx]?))).getD s.score
  | _, _ => s.score

/-- Modelled from the spec: the covariate-builder configuration of a
run. -/
def covCfg (cfg : Config) : CovConfig := ⟨cfg.kmerK, cfg.useGc, cfg.useLength⟩

/-- Modelled from the spec: whether a supplied external covariate table
is missing some sequence name of the main set. -/
def covMismatch (tbl : Option CovTable) (seqs : List SeqRec) : Bool :=
  match tbl with
  | some t => seqs.any (fun s => (t.rows.lookup s.name).isNone)
  | none => false

/-- Modelled from the spec: one per-motif unit of work — scan the motif
over all sequences, then fit the logistic model of presence against the
shared scores and reduced covariates. -/
def motifUnit (fitter : List Bool → List ℚ → List (List ℚ) → Option (ℚ × ℚ × ℚ))
    (logOdds : MotifMatrix → ℚ → List (Nuc → ℚ))
    (thrOf : MotifMatrix → ℚ → ℚ → ℚ) (cfg : Config)
    (seqs : List SeqRec) (scores : List ℚ) (covs : List (List ℚ))
    (m : MotifMatrix) : MotifResult :=
  fitMotif fitter m.motifId
    (presenceVector (logOdds m cfg.pseudocount)
      (thrOf m cfg.pseudocount cfg.pvalThr) cfg.revcomp seqs) scores covs

/-- Modelled from the spec: the externally supplied covariate values of
each sequence, appended unreduced to the reduced covariates. -/
def extCovRows (tbl : Option CovTable) (seqs : List SeqRec) : List (List ℚ) :=
  match tbl with
  | some t => seqs.map (fun s => (t.rows.lookup s.name).getD [])
  | none => seqs.map (fun _ => [])

/-- Modelled from the spec: the whole enrichment run — fatal input
checks first (empty sequence set, duplicate names, covariate mismatch,
empty motif set), then the shared covariate construction and reduction,
then one independent unit of work per motif, then aggregation into the
ranked result table. -/
def runPipeline (fitter : List Bool → List ℚ → List (List ℚ) → Option (ℚ × ℚ × ℚ))
    (decomp : List (List ℚ) → Option (List ℚ))
    (pcaCoords : List (List ℚ) → List (List ℚ)) (sqrtFn : ℚ → ℚ)
    (logOdds : MotifMatrix → ℚ → List (Nuc → ℚ))
    (thrOf : MotifMatrix → ℚ → ℚ → ℚ) (cfg : Config)
    (seqs : List SeqRec) (motifs : List MotifMatrix) (tbl : Option CovTable) :
    Except FatalError (List ResultRow) :=
  if seqs.isEmpty then .error .emptySet
  else if ¬ (seqs.map (fun s => s.name)).Nodup then .error .duplicateName
  else if covMismatch tbl seqs then .error .covariateMismatch
  else if motifs.isEmpty then .error .emptyMotifSet
  else
    let scores := seqs.map (usedScore cfg.scoreCol tbl)
    let raw := rawCovariateMatrix (covCfg cfg) seqs
    let reduced := reducedCovariates decomp pcaCoords sqrtFn raw
      (numCovCols (covCfg cfg))
    let covs := List.zipWith (fun a b => a ++ b) reduced (extCovRows tbl seqs)
    .ok (aggregate cfg.padjThr cfg.sortAbs
      (motifs.map (motifUnit fitter logOdds thrOf cfg seqs scores covs)))

theorem aggregate_length (padjThr : ℚ) (sortAbs : Bool)
    (results : List MotifResult) :
    (aggregate padjThr sortAbs results).length = results.length := by
  rw [aggregate, (List.mergeSort_perm _ _).length_eq, List.length_map]

theorem runPipeline_ok_of_valid
    (fitter : List Bool → List ℚ → List (List ℚ) → Option (ℚ × ℚ × ℚ))
    (decomp : List (List ℚ) → Option (List ℚ))
    (pcaCoords : List (List ℚ) → List (List ℚ)) (sqrtFn : ℚ → ℚ)
    (logOdds : MotifMatrix → ℚ → List (Nuc → ℚ))
    (thrOf : MotifMatrix → ℚ → ℚ → ℚ) (cfg : Config)
    (seqs : List SeqRec) (motifs : List MotifMatrix) (tbl : Option CovTable)
    (h1 : seqs ≠ []) (h2 : (seqs.map (fun s => s.name)).Nodup)
    (h3 : covMismatch tbl seqs = false) (h4 : motifs ≠ []) :
    runPipeline fitter decomp pcaCoords sqrtFn logOdds thrOf cfg seqs motifs tbl =
      .ok (aggregate cfg.padjThr cfg.sortAbs
        (motifs.map (motifUnit fitter logOdds thrOf cfg seqs
          (seqs.map (usedScore cfg.scoreCol tbl))
          (List.zipWith (fun a b => a ++ b)
            (reducedCovariates decomp pcaCoords sqrtFn
              (rawCovariateMatrix (covCfg cfg) seqs) (numCovCols (covCfg cfg)))
            (extCovRows tbl seqs))))) := by
  rw [runPipeline]
  rw [if_neg (by simp [h1]), if_neg (by simp [h2]), if_neg (by simp [h3]),
    if_neg (by simp [h4])]

/-- Claim C6: each fatal condition — zero sequences, duplicate sequence
names, an external covariate table missing a sequence name, zero motif
matrices — makes the run halt with the corresponding error and no
(partial) result table, before any per-motif work; a run with none of
these conditions always returns a result table with one row per motif,
even if some motifs are flagged. -/
theorem fatal_error_policy
    (fitter : List Bool → List ℚ → List (List ℚ) → Option (ℚ × ℚ × ℚ))
    (decomp : List (List ℚ) → Option (List ℚ))
    (pcaCoords : List (List ℚ) → List (List ℚ)) (sqrtFn : ℚ → ℚ)
    (logOdds : MotifMatrix → ℚ → List (Nuc → ℚ))
    (thrOf : MotifMatrix → ℚ → ℚ → ℚ) (cfg : Config)
    (seqs : List SeqRec) (motifs : List MotifMatrix) (tbl : Option CovTable) :
    (seqs = [] →
      runPipeline fitter decomp pcaCoords sqrtFn logOdds thrOf cfg seqs motifs tbl =
        .error .emptySet) ∧
    (seqs ≠ [] → ¬ (seqs.map (fun s => s.name)).Nodup →
      runPipeline fitter decomp pcaCoords sqrtFn logOdds thrOf cfg seqs motifs tbl =
        .error .duplicateName) ∧
    (seqs ≠ [] → (seqs.map (fun s => s.name)).Nodup →
      covMismatch tbl seqs = true →
      runPipeline fitter decomp pcaCoords sqrtFn logOdds thrOf cfg seqs motifs tbl =
        .error .covariateMismatch) ∧
    (seqs ≠ [] → (seqs.map (fun s => s.name)).Nodup →
      covMismatch tbl seqs = false → motifs = [] →
      runPipeline fitter decomp pcaCoords sqrtFn logOdds thrOf cfg seqs motifs tbl =
        .error .emptyMotifSet) ∧
    (seqs ≠ [] → (seqs.map (fun s => s.name)).Nodup →
      covMismatch tbl seqs = false → motifs ≠ [] →
      ∃ table,
        runPipeline fitter decomp pcaCoords sqrtFn logOdds thrOf cfg seqs motifs tbl =
          .ok table ∧ table.length = motifs.length) := by
  refine ⟨?_, ?_, ?_, ?_, ?_⟩
  · intro h
    rw [runPipeline, if_pos (by simp [h])]
  · intro h1 h2
    rw [runPipeline, if_neg (by simp [h1]), if_pos (by simpa using h2)]
  · intro h1 h2 h3
    rw [runPipeline, if_neg (by simp [h1]), if_neg (by simp [h2]),
      if_pos (by simp [h3])]
  · intro h1 h2 h3 h4
    rw [runPipeline, if_neg (by simp [h1]), if_neg (by simp [h2]),
      if_neg (by simp [h3]), if_pos (by simp [h4])]
  · intro h1 h2 h3 h4
    refine ⟨_, runPipeline_ok_of_valid fitter decomp pcaCoords sqrtFn logOdds
      thrOf cfg seqs motifs tbl h1 h2 h3 h4, ?_⟩
    rw [aggregate_length, List.length_map]

/-- Concrete instantiation of the fatal-error policy: a run on zero
sequences fails with the empty-set error, and a minimal valid run
returns a one-row table. -/
theorem fatal_error_policy_witness :
    runPipeline (fun _ _ _ => none) (fun _ => none) (fun x => x) (fun x => x)
        (fun m _ => m.pwm) (fun _ _ _ => 0)
        ⟨1/1000, 1/1000, 0, false, false, true, 1/20, false, none⟩
        [] [⟨"m", []⟩] none = .error .emptySet ∧
    (∃ table,
      runPipeline (fun _ _ _ => none) (fun _ => none) (fun x => x) (fun x => x)
          (fun m _ => m.pwm) (fun _ _ _ => 0)
          ⟨1/1000, 1/1000, 0, false, false, true, 1/20, false, none⟩
          [⟨"s1", [Nuc.A], 1⟩] [⟨"m", []⟩] none = .ok table ∧
        table.length = 1) :=
  ⟨(fatal_error_policy (fun _ _ _ => none) (fun _ => none) (fun x => x)
      (fun x => x) (fun m _ => m.pwm) (fun _ _ _ => 0)
      ⟨1/1000, 1/1000, 0, false, false, true, 1/20, false, none⟩
      [] [⟨"m", []⟩] none).1 rfl,
   (fatal_error_policy (fun _ _ _ => none) (fun _ => none) (fun x => x)
      (fun x => x) (fun m _ => m.pwm) (fun _ _ _ => 0)
      ⟨1/1000, 1/1000, 0, false, false, true, 1/20, false, none⟩
      [⟨"s1", [Nuc.A], 1⟩] [⟨"m", []⟩] none).2.2.2.2
    (by simp) (by simp) rfl (by simp)⟩

/-- Claim C10: when the score-column option is absent the regression
score of every sequence is its FASTA header score; when it names a
column of the supplied external covariate table, the score is the value
of that column in the sequence's table row instead. -/
theorem score_column_selection :
    (∀ (tbl : Option CovTable) (s : SeqRec), usedScore none tbl s = s.score) ∧
    (∀ (col : String) (t : CovTable) (s : SeqRec) (vals : List ℚ)
        (idx : ℕ) (v : ℚ),
      t.rows.lookup s.name = some vals →
      t.header.indexOf? col = some idx →
      vals[idx]? = some v →
      usedScore (some col) (some t) s = v) := by
  constructor
  · intro tbl s
    cases tbl <;> rfl
  · intro col t s vals idx v h1 h2 h3
    simp [usedScore, h1, h2, h3]

/-- Concrete instantiation of score selection: with the option set to
the table's only column the score 5 is read from the table, overriding
the header score 7. -/
theorem score_column_selection_witness :
    usedScore none (some ⟨["sc"], [("s1", [5])]⟩) ⟨"s1", [], 7⟩ = 7 ∧
    usedScore (some "sc") (some ⟨["sc"], [("s1", [5])]⟩) ⟨"s1", [], 7⟩ = 5 :=
  ⟨score_column_selection.1 (some ⟨["sc"], [("s1", [5])]⟩) ⟨"s1", [], 7⟩,
   score_column_selection.2 "sc" ⟨["sc"], [("s1", [5])]⟩ ⟨"s1", [], 7⟩
     [5] 0 5 rfl rfl rfl⟩

/-- Claim C4: for k > 0 the Covariate Builder gives every sequence one
column per possible k-mer — the 4^k combinations, zero-count k-mers
included — whose value is the k-mer count divided by (length − k + 1);
and with k = 0 and the GC and length flags off the raw covariate matrix
is empty (zero columns) and the run still succeeds, falling back to a
score-only regression. -/
theorem covariate_builder_contract :
    (∀ (cfg : CovConfig) (s : List Nuc), 0 < cfg.kmerK →
      (allKmers cfg.kmerK).length = 4 ^ cfg.kmerK ∧
      (∀ km : List Nuc, km ∈ allKmers cfg.kmerK ↔ km.length = cfg.kmerK) ∧
      (cfg.kmerK ≤ s.length → ∀ j, j < 4 ^ cfg.kmerK →
        (covariateRow cfg s)[j]? =
          some ((countKmer ((allKmers cfg.kmerK).getD j []) s : ℚ) /
            ((s.length - cfg.kmerK + 1 : ℕ) : ℚ)))) ∧
    (∀ (cfg : CovConfig) (seqs : List SeqRec), cfg.kmerK = 0 →
      cfg.useGc = false → cfg.useLength = false →
      rawCovariateMatrix cfg seqs = seqs.map (fun _ => []) ∧
      numCovCols cfg = 0) ∧
    (∀ (fitter : List Bool → List ℚ → List (List ℚ) → Option (ℚ × ℚ × ℚ))
        (decomp : List (List ℚ) → Option (List ℚ))
        (pcaCoords : List (List ℚ) → List (List ℚ)) (sqrtFn : ℚ → ℚ)
        (logOdds : MotifMatrix → ℚ → List (Nuc → ℚ))
        (thrOf : MotifMatrix → ℚ → ℚ → ℚ) (cfg : Config)
        (seqs : List SeqRec) (motifs : List MotifMatrix) (tbl : Option CovTable),
      cfg.kmerK = 0 → cfg.useGc = false → cfg.useLength = false →
      seqs ≠ [] → (seqs.map (fun s => s.name)).Nodup →
      covMismatch tbl seqs = false → motifs ≠ [] →
      ∃ table, runPipeline fitter decomp pcaCoords sqrtFn logOdds thrOf cfg
        seqs motifs tbl = .ok table) := by
  refine ⟨?_, ?_, ?_⟩
  · intro cfg s hk
    refine ⟨allKmers_length _, mem_allKmers _, ?_⟩
    intro hks j hj
    have hk0 : cfg.kmerK ≠ 0 := by omega
    have hlen : j < ((allKmers cfg.kmerK).map (fun km => kmerFrac km s)).length := by
      rw [List.length_map, allKmers_length]
      exact hj
    have hjk : j < (allKmers cfg.kmerK).length := by rwa [allKmers_length]
    have hlen2 : j < ((allKmers cfg.kmerK).map (fun km => kmerFrac km s) ++
        if cfg.useGc = true then [gcFrac s] else []).length := by
      rw [List.length_append]
      exact Nat.lt_of_lt_of_le hlen (Nat.le_add_right _ _)
    rw [covariateRow, if_neg hk0, List.getElem?_append, if_pos hlen2,
      List.getElem?_append, if_pos hlen,
      List.getElem?_map, List.getElem?_eq_getElem hjk]
    have hkm : ((allKmers cfg.kmerK)[j]).length = cfg.kmerK :=
      (mem_allKmers _ _).1 (List.getElem_mem _)
    have hgd : (allKmers cfg.kmerK).getD j [] = (allKmers cfg.kmerK)[j] :=
      List.getD_eq_getElem _ _ hjk
    have hnat : s.length + 1 - ((allKmers cfg.kmerK)[j]).length =
        s.length - cfg.kmerK + 1 := by
      rw [hkm]; omega
    simp only [Option.map_some', kmerFrac, hgd, hnat]
  · intro cfg seqs h0 hgc hlen
    constructor
    · simp [rawCovariateMatrix, covariateRow, h0, hgc, hlen]
    · simp [numCovCols, h0, hgc, hlen]
  · intro fitter decomp pcaCoords sqrtFn logOdds thrOf cfg seqs motifs tbl
      _ _ _ h1 h2 h3 h4
    exact ⟨_, runPipeline_ok_of_valid fitter decomp pcaCoords sqrtFn logOdds
      thrOf cfg seqs motifs tbl h1 h2 h3 h4⟩

/-- Concrete instantiation of the covariate-builder contract: for k = 1
on the sequence AC the column of k-mer A holds its normalized frequency,
and a k = 0, no-flags run still succeeds. -/
theorem covariate_builder_contract_witness :
    (covariateRow ⟨1, false, false⟩ [Nuc.A, Nuc.C])[0]? =
      some ((countKmer ((allKmers 1).getD 0 []) [Nuc.A, Nuc.C] : ℚ) /
        (([Nuc.A, Nuc.C].length - 1 + 1 : ℕ) : ℚ)) ∧
    (∃ table, runPipeline (fun _ _ _ => none) (fun _ => none) (fun x => x)
        (fun x => x) (fun m _ => m.pwm) (fun _ _ _ => 0)
        ⟨1/1000, 1/1000, 0, false, false, true, 1/20, false, none⟩
        [⟨"s1", [Nuc.A], 1⟩] [⟨"m", []⟩] none = .ok table) :=
  ⟨(covariate_builder_contract.1 ⟨1, false, false⟩ [Nuc.A, Nuc.C]
      (by decide)).2.2 (by decide) 0 (by decide),
   covariate_builder_contract.2.2 (fun _ _ _ => none) (fun _ => none)
     (fun x => x) (fun x => x) (fun m _ => m.pwm) (fun _ _ _ => 0)
     ⟨1/1000, 1/1000, 0, false, false, true, 1/20, false, none⟩
     [⟨"s1", [Nuc.A], 1⟩] [⟨"m", []⟩] none rfl rfl rfl (by simp) (by simp)
     rfl (by simp)⟩

theorem lookup_pairs {β : Type} (f : ℕ → β) (order : List ℕ) (i : ℕ)
    (hi : i ∈ order) :
    (order.map (fun j => (j, f j))).lookup i = some (f i) := by
  induction order with
  | nil => simp at hi
  | cons j rest ih =>
    rcases eq_or_ne i j with rfl | hne
    · simp [List.lookup]
    · have hmem : i ∈ rest := by
        rcases List.mem_cons.1 hi with rfl | h
        · exact absurd rfl hne
        · exact h
      have hb : (i == j) = false := by simpa using hne
      simp [List.lookup, hb, ih hmem]

/-- Modelled from the spec: reordering of a per-sequence list by a list
of input positions; when the index list is a permutation of the input
positions this is exactly a permutation of the input order, applied
identically to every per-sequence list (sequences, presence flags,
scores, covariate rows). -/
def permuteBy {α : Type} (d : α) (idx : List ℕ) (l : List α) : List α :=
  idx.map (fun i => l.getD i d)

theorem map_getD_range {α : Type} (l : List α) (d : α) :
    (List.range l.length).map (fun i => l.getD i d) = l := by
  apply List.ext_getElem?
  intro n
  by_cases hn : n < l.length
  · rw [List.getElem?_map, List.getElem?_range hn, Option.map_some',
      List.getD_eq_getElem _ _ hn, List.getElem?_eq_getElem hn]
  · rw [List.getElem?_eq_none, List.getElem?_eq_none]
    · omega
    · rw [List.length_map, List.length_range]
      omega

theorem permuteBy_perm {α : Type} (d : α) (idx : List ℕ) (l : List α)
    (h : idx.Perm (List.range l.length)) : (permuteBy d idx l).Perm l := by
  have hm := h.map (fun i => l.getD i d)
  rwa [map_getD_range] at hm

theorem presenceVector_permuteBy (lom : List (Nuc → ℚ)) (θ : ℚ) (rc : Bool)
    (seqs : List SeqRec) (idx : List ℕ) (h : ∀ i ∈ idx, i < seqs.length) :
    presenceVector lom θ rc (permuteBy default idx seqs) =
      permuteBy false idx (presenceVector lom θ rc seqs) := by
  rw [presenceVector, permuteBy, List.map_map, permuteBy, presenceVector]
  apply List.map_congr_left
  intro i hi
  have hlt := h i hi
  have hlt2 : i < (seqs.map (fun s => seqPresence lom θ rc s.nts)).length := by
    rwa [List.length_map]
  simp only [Function.comp_apply, List.getD_eq_getElem _ _ hlt,
    List.getD_eq_getElem _ _ hlt2, List.getElem_map]

theorem fitMotif_permute
    (fitter : List Bool → List ℚ → List (List ℚ) → Option (ℚ × ℚ × ℚ))
    (hfit : ∀ (idx : List ℕ) (presence : List Bool) (scores : List ℚ)
        (covs : List (List ℚ)), idx.Perm (List.range presence.length) →
      fitter (permuteBy false idx presence) (permuteBy 0 idx scores)
          (permuteBy [] idx covs) = fitter presence scores covs)
    (motifId : String) (presence : List Bool) (scores : List ℚ)
    (covs : List (List ℚ)) (idx : List ℕ)
    (hidx : idx.Perm (List.range presence.length)) :
    fitMotif fitter motifId (permuteBy false idx presence)
        (permuteBy 0 idx scores) (permuteBy [] idx covs) =
      fitMotif fitter motifId presence scores covs := by
  have hperm : (permuteBy false idx presence).Perm presence :=
    permuteBy_perm _ _ _ hidx
  have hcount := hperm.countP_eq (fun b => b)
  have hlen := hperm.length_eq
  simp only [fitMotif]
  rw [hcount, hlen, hfit idx presence scores covs hidx]

/-- Claim C7: the pipeline is deterministic and order-independent —
repeated scans of the same motif over the same sequences give the same
presence vector; presence-vector rows and covariate rows align
positionally with the input sequences, so permuting the input permutes
the outputs identically; under any permutation of the input sequences
the per-motif presence count is unchanged and, for any fitter that is
invariant under joint reordering of its per-sequence inputs (as the
likelihood of a logistic regression is), the entire per-motif
MotifResult — coefficient, standard error, p-value, convergence flag,
presence count — is unchanged; and collecting the per-motif units of
work processed in any scheduling order yields the same table contents as
processing them in input order. -/
theorem pipeline_order_independence :
    (∀ (lom : List (Nuc → ℚ)) (θ : ℚ) (rc : Bool) (seqs : List SeqRec),
      presenceVector lom θ rc seqs = presenceVector lom θ rc seqs) ∧
    (∀ (lom : List (Nuc → ℚ)) (θ : ℚ) (rc : Bool) (seqs : List SeqRec) (i : ℕ),
      (presenceVector lom θ rc seqs)[i]? =
        (seqs[i]?).map (fun s => seqPresence lom θ rc s.nts)) ∧
    (∀ (cfg : CovConfig) (seqs : List SeqRec) (i : ℕ),
      (rawCovariateMatrix cfg seqs)[i]? =
        (seqs[i]?).map (fun s => covariateRow cfg s.nts)) ∧
    (∀ (lom : List (Nuc → ℚ)) (θ : ℚ) (rc : Bool) (seqs seqs2 : List SeqRec),
      seqs.Perm seqs2 →
      (presenceVector lom θ rc seqs).Perm (presenceVector lom θ rc seqs2) ∧
      (presenceVector lom θ rc seqs).countP (fun b => b) =
        (presenceVector lom θ rc seqs2).countP (fun b => b)) ∧
    (∀ (fitter : List Bool → List ℚ → List (List ℚ) → Option (ℚ × ℚ × ℚ))
        (logOdds : MotifMatrix → ℚ → List (Nuc → ℚ))
        (thrOf : MotifMatrix → ℚ → ℚ → ℚ) (cfg : Config)
        (seqs : List SeqRec) (scores : List ℚ) (covs : List (List ℚ))
        (motifs : List MotifMatrix) (order : List ℕ),
      order.Perm (List.range motifs.length) →
      (List.range motifs.length).map (fun i =>
          (order.map (fun j => (j,
            motifUnit fitter logOdds thrOf cfg seqs scores covs
              (motifs.getD j default)))).lookup i) =
        motifs.map (fun m =>
          some (motifUnit fitter logOdds thrOf cfg seqs scores covs m))) ∧
    (∀ (fitter : List Bool → List ℚ → List (List ℚ) → Option (ℚ × ℚ × ℚ))
        (logOdds : MotifMatrix → ℚ → List (Nuc → ℚ))
        (thrOf : MotifMatrix → ℚ → ℚ → ℚ) (cfg : Config)
        (seqs : List SeqRec) (scores : List ℚ) (covs : List (List ℚ))
        (m : MotifMatrix) (idx : List ℕ),
      (∀ (idx2 : List ℕ) (presence : List Bool) (scores2 : List ℚ)
          (covs2 : List (List ℚ)),
        idx2.Perm (List.range presence.length) →
        fitter (permuteBy false idx2 presence) (permuteBy 0 idx2 scores2)
            (permuteBy [] idx2 covs2) = fitter presence scores2 covs2) →
      idx.Perm (List.range seqs.length) →
      motifUnit fitter logOdds thrOf cfg (permuteBy default idx seqs)
          (permuteBy 0 idx scores) (permuteBy [] idx covs) m =
        motifUnit fitter logOdds thrOf cfg seqs scores covs m) := by
  refine ⟨?_, ?_, ?_, ?_, ?_, ?_⟩
  · intro lom θ rc seqs
    rfl
  · intro lom θ rc seqs i
    rw [presenceVector, List.getElem?_map]
  · intro cfg seqs i
    rw [rawCovariateMatrix, List.getElem?_map]
  · intro lom θ rc seqs seqs2 h
    exact ⟨h.map _, (h.map _).countP_eq _⟩
  · intro fitter logOdds thrOf cfg seqs scores covs motifs order horder
    apply List.ext_getElem?
    intro n
    by_cases hn : n < motifs.length
    · rw [List.getElem?_map, List.getElem?_map, List.getElem?_range hn,
        List.getElem?_eq_getElem hn, Option.map_some', Option.map_some']
      have hmem : n ∈ order := horder.mem_iff.2 (List.mem_range.2 hn)
      rw [lookup_pairs _ _ _ hmem, List.getD_eq_getElem _ _ hn]
    · rw [List.getElem?_eq_none, List.getElem?_eq_none]
      · rwa [List.length_map, Nat.not_lt] at *
      · rwa [List.length_map, List.length_range, Nat.not_lt] at *
  · intro fitter logOdds thrOf cfg seqs scores covs m idx hfit hidx
    have hmem : ∀ i ∈ idx, i < seqs.length := fun i hi =>
      List.mem_range.1 (hidx.mem_iff.1 hi)
    rw [motifUnit, motifUnit, presenceVector_permuteBy _ _ _ _ _ hmem]
    apply fitMotif_permute fitter hfit
    have hplen : (presenceVector (logOdds m cfg.pseudocount)
        (thrOf m cfg.pseudocount cfg.pvalThr) cfg.revcomp seqs).length =
        seqs.length := by
      rw [presenceVector, List.length_map]
    rw [hplen]
    exact hidx

/-- Concrete instantiation of order independence: swapping two sequences
permutes the presence vector and keeps the presence count; a one-motif
schedule processed as [0] collects to the same table row as input order;
and for an input-order-invariant fitter the per-motif MotifResult is
identical on the swapped input. -/
theorem pipeline_order_independence_witness :
    ((presenceVector [] 0 true [⟨"s1", [], 1⟩, ⟨"s2", [], 2⟩]).Perm
        (presenceVector [] 0 true [⟨"s2", [], 2⟩, ⟨"s1", [], 1⟩]) ∧
      (presenceVector [] 0 true [⟨"s1", [], 1⟩, ⟨"s2", [], 2⟩]).countP
          (fun b => b) =
        (presenceVector [] 0 true [⟨"s2", [], 2⟩, ⟨"s1", [], 1⟩]).countP
          (fun b => b)) ∧
    (List.range 1).map (fun i =>
        ([0].map (fun j => (j,
          motifUnit (fun _ _ _ => none) (fun m _ => m.pwm) (fun _ _ _ => 0)
            ⟨1/1000, 1/1000, 2, false, false, true, 1/20, false, none⟩
            [] [] [] ([⟨"m", []⟩].getD j default)))).lookup i) =
      [⟨"m", []⟩].map (fun m =>
        some (motifUnit (fun _ _ _ => none) (fun m2 _ => m2.pwm) (fun _ _ _ => 0)
          ⟨1/1000, 1/1000, 2, false, false, true, 1/20, false, none⟩
          [] [] [] m)) ∧
    motifUnit (fun _ _ _ => none) (fun m _ => m.pwm) (fun _ _ _ => 0)
        ⟨1/1000, 1/1000, 2, false, false, true, 1/20, false, none⟩
        (permuteBy default [1, 0] [⟨"s1", [], 1⟩, ⟨"s2", [], 2⟩])
        (permuteBy 0 [1, 0] []) (permuteBy [] [1, 0] []) ⟨"m", []⟩ =
      motifUnit (fun _ _ _ => none) (fun m _ => m.pwm) (fun _ _ _ => 0)
        ⟨1/1000, 1/1000, 2, false, false, true, 1/20, false, none⟩
        [⟨"s1", [], 1⟩, ⟨"s2", [], 2⟩] [] [] ⟨"m", []⟩ :=
  ⟨pipeline_order_independence.2.2.2.1 [] 0 true
      [⟨"s1", [], 1⟩, ⟨"s2", [], 2⟩] [⟨"s2", [], 2⟩, ⟨"s1", [], 1⟩]
      (List.Perm.swap _ _ _),
   pipeline_order_independence.2.2.2.2.1 (fun _ _ _ => none) (fun m _ => m.pwm)
     (fun _ _ _ => 0) ⟨1/1000, 1/1000, 2, false, false, true, 1/20, false, none⟩
     [] [] [] [⟨"m", []⟩] [0]
     (by decide),
   pipeline_order_independence.2.2.2.2.2 (fun _ _ _ => none) (fun m _ => m.pwm)
     (fun _ _ _ => 0) ⟨1/1000, 1/1000, 2, false, false, true, 1/20, false, none⟩
     [⟨"s1", [], 1⟩, ⟨"s2", [], 2⟩] [] [] ⟨"m", []⟩ [1, 0]
     (fun _ _ _ _ _ => rfl) (by decide)⟩

end Meirlop
